import Mathlib

/-!
Verification development for the v4v inter-domain messaging fabric
(`xen/common/v4v.c`).  The C code is shallowly embedded: pure computations
become Lean functions over `Nat`/`Int`, guest-memory accesses and page
mappings that may fail are driven by explicit boolean oracles, and linked
lists (`hlist`, `list_head`) become Lean lists traversed in the same order
as the C loops.
-/

namespace V4V

/-! ### Constants (from `xen/common/v4v.c` and the v4v public headers) -/

/-- `PAGE_SHIFT` on x86. -/
def PAGE_SHIFT : Nat := 12

/-- `PAGE_SIZE = 1 <<< PAGE_SHIFT`. -/
def PAGE_SIZE : Nat := 4096

/-- `V4V_ROUNDUP(a) = ((a) + 0xf) & ~0xf`: round up to a multiple of 16.
On unsigned arithmetic clearing the low 4 bits of `a + 15` is exactly
`((a + 15) >>> 4) <<< 4`. -/
def V4V_ROUNDUP (a : Nat) : Nat := ((a + 0xf) >>> 4) <<< 4

/-- `sizeof(struct v4v_ring_message_header)`: 16 bytes
(`len : u32`, `source : v4v_addr_t` (8 bytes), `message_type : u32`). -/
def MSG_HDR_SIZE : Nat := 16

/-- `sizeof(v4v_ring_t)`: byte offset at which the payload area of a ring
begins.  The spec fixes the guest-visible ring header at 64 bytes; the
exact value is immaterial to the claims, only that payload offset `p`
lives at ring offset `RING_HDR_SIZE + p`. -/
def RING_HDR_SIZE : Nat := 64

/-- `V4V_DOMID_ANY` (= Xen `DOMID_ANY`); wildcard domain id.  The value is
taken from the public headers (not under `src/`); the claims only require
it to be a fixed sentinel. -/
def V4V_DOMID_ANY : Nat := 0x7FF4

/-- `V4V_PORT_ANY`: wildcard port in filter rules (`(uint32_t)-1`). -/
def V4V_PORT_ANY : Nat := 0xFFFFFFFF

/-- `V4V_RING_MAGIC` from the public header (value immaterial to claims). -/
def V4V_RING_MAGIC : Nat := 0xdf6977f231abd910

/-! Error numbers (Xen uses the Linux values). -/

def EAGAIN : Int := 11
def ENOMEM : Int := 12
def EFAULT : Int := 14
def EINVAL : Int := 22
def ENOENT : Int := 2
def EEXIST : Int := 17
def EMSGSIZE : Int := 90
def ECONNREFUSED : Int := 111
def ENODEV : Int := 19

/-! ### Addresses, ring ids, hash function -/

/-- `v4v_addr_t`: `(domain, port)`. -/
structure V4vAddr where
  domain : Nat
  port : Nat
deriving DecidableEq, Repr

/-- `v4v_ring_id_t`: address plus partner domain. -/
structure RingIdT where
  port : Nat
  domain : Nat
  partner : Nat
deriving DecidableEq, Repr

/-- `v4v_hash_fn`: xor-fold of port halves, owning domain and partner,
masked to the 32 hash buckets (`V4V_HTABLE_SIZE - 1 = 31`). -/
def v4v_hash_fn (id : RingIdT) : Nat :=
  (((id.port >>> 16) ^^^ (id.port &&& 0xFFFF)) ^^^ id.domain ^^^ id.partner) &&& 31

/-! ### Pending-waiter set (`struct v4v_pending_ent`, C3 of the spec) -/

/-- `struct v4v_pending_ent`: `(sender domain id, required length)`. -/
structure PendingEnt where
  id : Nat
  len : Nat
deriving DecidableEq, Repr

/-- The in-place update performed by `v4v_pending_requeue` when it finds an
entry for the sender: `if (ent->len < len) ent->len = len;` on the first
matching entry of the list. -/
def updateFirst : List PendingEnt → Nat → Nat → List PendingEnt
  | [], _, _ => []
  | e :: rest, src, len =>
    if e.id = src then { e with len := if e.len < len then len else e.len } :: rest
    else e :: updateFirst rest src len

/-- `v4v_pending_queue`: allocate an entry and `hlist_add_head` it; on
allocation failure (`!ent`) return `-ENOMEM` and leave the list alone. -/
def v4v_pending_queue (allocOk : Bool) (p : List PendingEnt) (src len : Nat) :
    List PendingEnt × Int :=
  if allocOk then (⟨src, len⟩ :: p, 0) else (p, -ENOMEM)

/-- `v4v_pending_requeue`: if an entry for `src` exists keep the larger of
the two lengths, otherwise fall through to `v4v_pending_queue`. -/
def v4v_pending_requeue (allocOk : Bool) (p : List PendingEnt) (src len : Nat) :
    List PendingEnt × Int :=
  if p.any (fun e => e.id == src) then (updateFirst p src len, 0)
  else v4v_pending_queue allocOk p src len

/-- `v4v_pending_cancel`: delete every entry whose `id` equals `src`. -/
def v4v_pending_cancel (p : List PendingEnt) (src : Nat) : List PendingEnt :=
  p.filter (fun e => ¬ e.id = src)

/-- `v4v_pending_find`: walk the ring's pending list; every entry with
`payload_space >= ent->len` is unlinked and `hlist_add_head`-ed onto the
`to_notify` list; the others stay.  Returns (remaining, to_notify). -/
def v4v_pending_find : List PendingEnt → Nat → List PendingEnt →
    List PendingEnt × List PendingEnt
  | [], _, acc => ([], acc)
  | e :: rest, space, acc =>
    if space ≥ e.len then
      v4v_pending_find rest space (e :: acc)
    else
      let r := v4v_pending_find rest space acc
      (e :: r.1, r.2)

/-- `v4v_pending_notify`: signal `pending_ent->id` for each entry of the
`to_notify` list, in list order; returns the sequence of signalled domain
ids (the event-channel send itself is external). -/
def v4v_pending_notify (to_notify : List PendingEnt) : List Nat :=
  to_notify.map (·.id)

/-! ### Filter table (`v4vtables_*`) -/

/-- `v4vtables_rule_t`: accept flag plus source and destination patterns.
In C `accept` is an integer; the evaluator only tests `!accept`, so a
`Bool` carries the same information. -/
structure Rule where
  accept : Bool
  src : V4vAddr
  dst : V4vAddr
deriving DecidableEq, Repr

/-- The four-field wildcard-or-equal test from `v4vtables_check`. -/
def ruleMatches (r : Rule) (src dst : V4vAddr) : Bool :=
  (r.src.domain == V4V_DOMID_ANY || r.src.domain == src.domain) &&
  (r.src.port == V4V_PORT_ANY || r.src.port == src.port) &&
  (r.dst.domain == V4V_DOMID_ANY || r.dst.domain == dst.domain) &&
  (r.dst.port == V4V_PORT_ANY || r.dst.port == dst.port)

/-- `v4vtables_check`: first-match evaluation over the rule list; returns
`0` (accept) by default, and `!rule.accept` for the first matching rule.
A non-zero result makes `v4v_sendv` refuse the send. -/
def v4vtables_check : List Rule → V4vAddr → V4vAddr → Nat
  | [], _, _ => 0
  | r :: rest, src, dst =>
    if ruleMatches r src dst then (if r.accept then 0 else 1)
    else v4vtables_check rest src dst

/-- The walk in `v4vtables_add`: after `position--`, step
`while (position != 0 && tmp->next != &v4vtables_rules)`; the result is
the number of steps taken from the list head, i.e. the insertion index. -/
def tablesAddIndex : Nat → Int → Nat
  | 0, _ => 0
  | n + 1, p => if p = 0 then 0 else tablesAddIndex n (p - 1) + 1

/-- `v4vtables_add`: insert at 1-based `position`, clamped to the list
end (a `position ≤ 0` walks to the end). -/
def v4vtables_add (rules : List Rule) (r : Rule) (position : Int) : List Rule :=
  rules.insertIdx (tablesAddIndex rules.length (position - 1)) r

/-- The position walk in `v4vtables_del`:
`list_for_each(tmp) { to_delete = tmp; if (position == 0) break; position--; }`.
Returns the index held by `to_delete` (if any element was visited) and the
final value of `position`. -/
def delWalk : List Rule → Int → Option Nat × Int
  | [], p => (none, p)
  | _ :: rest, p =>
    if p = 0 then (some 0, 0)
    else
      match delWalk rest (p - 1) with
      | (some i, q) => (some (i + 1), q)
      | (none, q) => (some 0, q)

/-- `v4vtables_del`: `position != -1` selects deletion by 0-based position
(after the walk, `if (position != 0) to_delete = NULL`); otherwise a
non-null rule handle selects deletion of the first rule equal in all four
fields (`fetchOk` models the `copy_from_guest` of that rule); otherwise
flush.  Returns the new list and the call's return value. -/
def v4vtables_del (fetchOk : Bool) (rules : List Rule) (ruleArg : Option Rule)
    (position : Int) : List Rule × Int :=
  if position ≠ -1 then
    let w := delWalk rules position
    let td := if w.2 ≠ 0 then none else w.1
    match td with
    | some i => (rules.eraseIdx i, 0)
    | none => (rules, 0)
  else
    match ruleArg with
    | some rq =>
      if ¬ fetchOk then (rules, -EFAULT)
      else
        match rules.findIdx? (fun n =>
            n.src.domain == rq.src.domain && n.src.port == rq.src.port &&
            n.dst.domain == rq.dst.domain && n.dst.port == rq.dst.port) with
        | some i => (rules.eraseIdx i, 0)
        | none => (rules, 0)
    | none => ([], 0)

/-! ### Rings

`struct v4v_ring_info` (the hypervisor cache) together with the
guest-visible `rx_ptr`/`tx_ptr` words of the ring it fronts.  All numeric
fields are `u32` values; theorems restrict inputs to ranges where 32-bit
wrap-around cannot occur, and the `u32`/`int32` conversions that matter
in range (signed reinterpretation of pointer differences) are modelled
explicitly. -/
structure VRing where
  id : RingIdT
  len : Nat
  npage : Nat
  tx_ptr : Nat
  rxWord : Nat
  txWord : Nat
  rxReadOk : Bool
  pending : List PendingEnt
deriving DecidableEq, Repr

/-- Reinterpret a `u32` value as `int32` (two's complement). -/
def int32ofU32 (n : Nat) : Int :=
  if n % 2 ^ 32 < 2 ^ 31 then (n % 2 ^ 32 : Int) else (n % 2 ^ 32 : Int) - 2 ^ 32

/-- `u32` subtraction `a - b` (wrap-around modulo `2^32`). -/
def u32sub (a b : Nat) : Nat := (((a : Int) - b).emod (2 ^ 32)).toNat

/-- A C `int` value used where the other operand is `size_t`: the usual
arithmetic conversions reinterpret a negative value as a huge unsigned
one. -/
def intAsSizeT (sp : Int) : Int := if sp < 0 then sp + 2 ^ 64 else sp

/-- `v4v_ring_map_page`: fails fast for `i >= npage`; otherwise the page
is mapped (or was already mapped and the cached pointer is returned).
`mapOk i` tells whether mapping page `i` succeeds in this call; because
successful mappings are cached in `mfn_mapping` and no code path retries
a failed page, one boolean per page captures every execution. -/
def v4v_ring_map_page (mapOk : Nat → Bool) (npage i : Nat) : Bool :=
  decide (i < npage) && mapOk i

/-- The page-by-page loop shared by `v4v_memcpy_to_guest_ring` and
`v4v_memcpy_from_guest_ring`: copy `len` bytes starting at `offset`
within `page`, walking forward one page at a time.  `copyOk j` is the
success of the `j`-th `__copy_from_guest` chunk (constantly `true` when
the source is hypervisor memory).  Returns whether the whole copy
succeeded.
The first argument is recursion fuel: each iteration of the C loop
shrinks `len` by at least one (the entry `offset` is already masked below
`PAGE_SIZE`), so the wrappers pass `len + 1` and the exhausted-fuel case
is unreachable. -/
def memcpyRingLoop (mapOk copyOk : Nat → Bool) (npage : Nat) :
    Nat → Nat → Nat → Nat → Nat → Bool
  | 0, _, _, _, _ => false
  | fuel + 1, page, offset, len, j =>
    if offset + len > PAGE_SIZE then
      if ¬ v4v_ring_map_page mapOk npage page then false
      else if ¬ copyOk j then false
      else memcpyRingLoop mapOk copyOk npage fuel (page + 1) 0 (len - (PAGE_SIZE - offset)) (j + 1)
    else v4v_ring_map_page mapOk npage page && copyOk j

/-- `v4v_memcpy_to_guest_ring` success: `page = offset >> PAGE_SHIFT`,
`page %= npage`, `offset &= PAGE_SIZE - 1`, then the chunk loop.
(The C code divides by a zero `npage` if a ring had no pages; theorems
assume `0 < npage`, which registration guarantees.) -/
def v4v_memcpy_to_guest_ring_ok (mapOk copyOk : Nat → Bool) (npage offset len : Nat) : Bool :=
  memcpyRingLoop mapOk copyOk npage (len + 1) ((offset >>> PAGE_SHIFT) % npage)
    (offset &&& (PAGE_SIZE - 1)) len 0

/-- `v4v_memcpy_from_guest_ring` success: same walk, plain `memcpy` into
hypervisor memory, so only page mapping can fail. -/
def v4v_memcpy_from_guest_ring_ok (mapOk : Nat → Bool) (npage offset len : Nat) : Bool :=
  memcpyRingLoop mapOk (fun _ => true) npage (len + 1) ((offset >>> PAGE_SHIFT) % npage)
    (offset &&& (PAGE_SIZE - 1)) len 0

/-- `v4v_update_tx_ptr` / `v4v_update_rx_ptr` succeed iff page 0 of the
ring maps (`write_atomic` itself cannot fail). -/
def v4v_update_ptr_ok (mapOk : Nat → Bool) (npage : Nat) : Bool :=
  v4v_ring_map_page mapOk npage 0

/-- `v4v_ringbuf_get_rx_ptr`: fails if the ring has no pages or its own
`map_domain_page` of page 0 fails; otherwise returns the guest's
`rx_ptr` word. -/
def v4v_ringbuf_get_rx_ptr (r : VRing) : Option Nat :=
  if r.npage = 0 then none
  else if r.rxReadOk then some r.rxWord else none

/-- `v4v_ringbuf_payload_space`: `0` when the `rx_ptr` read fails; `len -
sizeof(mh)` when the ring is empty (`rx == tx`); otherwise the `int32`
difference `rx - tx` (plus `len` if negative) minus `sizeof(mh)` minus
`V4V_ROUNDUP(1)`, clamped at 0. -/
def v4v_ringbuf_payload_space (r : VRing) : Nat :=
  match v4v_ringbuf_get_rx_ptr r with
  | none => 0
  | some rx =>
    if rx = r.tx_ptr then r.len - MSG_HDR_SIZE
    else
      let d0 : Int := int32ofU32 (u32sub rx r.tx_ptr)
      let d1 : Int := if d0 < 0 then d0 + r.len else d0
      let d2 : Int := d1 - MSG_HDR_SIZE - (V4V_ROUNDUP 1 : Nat)
      (if d2 < 0 then 0 else d2).toNat

/-! ### Ring registry (`struct v4v_domain`) -/

/-- `struct v4v_domain`: the per-domain state; `ringHash i` is hash
bucket `i` of `ring_hash` (only indices `0..31` are populated). -/
structure V4vDomain where
  domid : Nat
  evtchnPort : Nat
  ringHash : Nat → List VRing

/-- `v4v_ring_find_info`: search the bucket selected by `v4v_hash_fn` for
the first ring whose id matches in all three fields. -/
def v4v_ring_find_info (d : V4vDomain) (id : RingIdT) : Option VRing :=
  (d.ringHash (v4v_hash_fn id)).find? (fun r =>
    r.id.port == id.port && r.id.domain == id.domain && r.id.partner == id.partner)

/-- `v4v_ring_find_info_by_addr`: look up `(a.port, d.domid, partner)`
first with `partner = p`, then with `partner = V4V_DOMID_ANY`. -/
def v4v_ring_find_info_by_addr (d : V4vDomain) (a : V4vAddr) (p : Nat) : Option VRing :=
  match v4v_ring_find_info d ⟨a.port, d.domid, p⟩ with
  | some r => some r
  | none => v4v_ring_find_info d ⟨a.port, d.domid, V4V_DOMID_ANY⟩

/-! ### The ring-buffer insertion engine (`v4v_ringbuf_insertv`) -/

/-- Failure oracles and guest-supplied data for one `v4v_ringbuf_insertv`
call: `mapOk i` — mapping destination-ring page `i` succeeds;
`iovFetchOk k` — `copy_from_guest` of the `k`-th iovec descriptor;
`iovHandleOk k` — `guest_handle_okay` of the `k`-th buffer;
`iovLen k` — `iov_len` of the `k`-th descriptor; `copyOk k c j` —
`__copy_from_guest` of chunk `j` of call `c` (0 = pre-wrap, 1 = main)
for iovec `k`. -/
structure InsertEnv where
  mapOk : Nat → Bool
  iovFetchOk : Nat → Bool
  iovHandleOk : Nat → Bool
  iovLen : Nat → Nat
  copyOk : Nat → Nat → Nat → Bool

/-- Guest-memory writes performed by the engine, in program order.
`ringData offset len` is a successful `v4v_memcpy_to_guest_ring` of
`len` bytes at ring offset `offset` (payload offset `offset -
RING_HDR_SIZE`); `txPtr`/`rxPtr` are the atomic pointer-word updates. -/
inductive WriteEv where
  | txPtr (v : Nat)
  | rxPtr (v : Nat)
  | ringData (offset len : Nat)
deriving DecidableEq, Repr

/-- State of the iovec-gathering loop: the local `ring.tx_ptr`, the write
log so far, and `ret`. -/
structure IovLoopSt where
  txLocal : Nat
  writes : List WriteEv
  ret : Int

/-- The `while (niov--)` loop of `v4v_ringbuf_insertv`: fetch the `k`-th
iovec, validate its handle, split the copy at the ring end
(`sp = ring.len - ring.tx_ptr`), copy, advance and wrap `ring.tx_ptr`. -/
def insertvIovLoop (e : InsertEnv) (ringLen npage : Nat) :
    Nat → Nat → IovLoopSt → IovLoopSt
  | 0, _, st => st
  | n + 1, k, st =>
    if ¬ e.iovFetchOk k then { st with ret := -EFAULT }
    else if ¬ e.iovHandleOk k then { st with ret := -EFAULT }
    else
      let lenK := e.iovLen k
      let sp : Int := int32ofU32 (u32sub ringLen st.txLocal)
      if (lenK : Int) > intAsSizeT sp then
        if ¬ v4v_memcpy_to_guest_ring_ok e.mapOk (e.copyOk k 0) npage
            (st.txLocal + RING_HDR_SIZE) sp.toNat then { st with ret := -EFAULT }
        else
          let st1 : IovLoopSt :=
            { st with
              writes := st.writes ++ [.ringData (st.txLocal + RING_HDR_SIZE) sp.toNat]
              txLocal := 0 }
          let lenK2 := lenK - sp.toNat
          if ¬ v4v_memcpy_to_guest_ring_ok e.mapOk (e.copyOk k 1) npage
              (st1.txLocal + RING_HDR_SIZE) lenK2 then { st1 with ret := -EFAULT }
          else
            let tx2 := st1.txLocal + lenK2
            insertvIovLoop e ringLen npage n (k + 1)
              { st1 with
                writes := st1.writes ++ [.ringData (st1.txLocal + RING_HDR_SIZE) lenK2]
                txLocal := if tx2 = ringLen then 0 else tx2 }
      else
        if ¬ v4v_memcpy_to_guest_ring_ok e.mapOk (e.copyOk k 1) npage
            (st.txLocal + RING_HDR_SIZE) lenK then { st with ret := -EFAULT }
        else
          let tx2 := st.txLocal + lenK
          insertvIovLoop e ringLen npage n (k + 1)
            { st with
              writes := st.writes ++ [.ringData (st.txLocal + RING_HDR_SIZE) lenK]
              txLocal := if tx2 = ringLen then 0 else tx2 }

/-- Result of one `v4v_ringbuf_insertv` call: the ring afterwards, the
guest-memory writes in order, and the return value. -/
structure InsertOut where
  ring : VRing
  writes : List WriteEv
  ret : Int

/-- The final producer pointer: `ring.tx_ptr = V4V_ROUNDUP(ring.tx_ptr)`
followed by `if (ring.tx_ptr >= ring_info->len) ring.tx_ptr -= len`. -/
def insertvFinishTx (ri : VRing) (st : IovLoopSt) : Nat :=
  if V4V_ROUNDUP st.txLocal ≥ ri.len then V4V_ROUNDUP st.txLocal - ri.len
  else V4V_ROUNDUP st.txLocal

/-- Epilogue of `v4v_ringbuf_insertv` after the iovec loop: on loop
failure propagate `ret`; otherwise round up and wrap `ring.tx_ptr`,
store it into the cache (`ring_info->tx_ptr` is assigned *before* the
guest write), and write the guest `tx_ptr` word. -/
def insertvFinish (e : InsertEnv) (ri : VRing) (st : IovLoopSt) (happy : Int) : InsertOut :=
  if st.ret ≠ 0 then ⟨ri, st.writes, st.ret⟩
  else
    let txF := insertvFinishTx ri st
    let ri1 := { ri with tx_ptr := txF }
    if ¬ v4v_update_ptr_ok e.mapOk ri1.npage then ⟨ri1, st.writes, -EFAULT⟩
    else ⟨{ ri1 with txWord := txF }, st.writes ++ [.txPtr txF], happy⟩

/-- Tail of `v4v_ringbuf_insertv` after the free-space value `sp` and the
working `ring.tx_ptr` have been established: the `EAGAIN` test, the
message-header write, the iovec loop, and the epilogue. -/
def insertvWrite (e : InsertEnv) (ri : VRing) (len niov : Nat) (sp : Int)
    (txLocal : Nat) (writes : List WriteEv) (happy : Int) : InsertOut :=
  if (V4V_ROUNDUP len + MSG_HDR_SIZE : Int) ≥ intAsSizeT sp then ⟨ri, writes, -EAGAIN⟩
  else if ¬ v4v_memcpy_to_guest_ring_ok e.mapOk (fun _ => true) ri.npage
      (txLocal + RING_HDR_SIZE) MSG_HDR_SIZE then ⟨ri, writes, -EFAULT⟩
  else
    let writes1 := writes ++ [.ringData (txLocal + RING_HDR_SIZE) MSG_HDR_SIZE]
    let tx1 := txLocal + MSG_HDR_SIZE
    let tx2 := if tx1 = ri.len then 0 else tx1
    insertvFinish e ri (insertvIovLoop e ri.len ri.npage niov 0 ⟨tx2, writes1, 0⟩) happy

/-- `v4v_ringbuf_insertv`: the whole insertion engine.  `len` is the
total byte count previously computed by `v4v_iov_count`; `ri.rxWord` is
what the header read returns for `ring.rx_ptr`, while `ring.tx_ptr` and
`ring.len` are overwritten with the cached hypervisor copies. -/
def v4v_ringbuf_insertv (e : InsertEnv) (ri : VRing) (len niov : Nat) : InsertOut :=
  let happy : Int := len
  if V4V_ROUNDUP len + MSG_HDR_SIZE ≥ ri.len then ⟨ri, [], -EMSGSIZE⟩
  else if ¬ v4v_memcpy_from_guest_ring_ok e.mapOk ri.npage 0 RING_HDR_SIZE then
    ⟨ri, [], -EFAULT⟩
  else if ri.rxWord = ri.tx_ptr then
    if ri.tx_ptr ≠ 0 then
      let ri1 := { ri with tx_ptr := 0 }
      if ¬ v4v_update_ptr_ok e.mapOk ri1.npage then ⟨ri1, [], -EFAULT⟩
      else
        let ri2 := { ri1 with txWord := 0 }
        if ¬ v4v_update_ptr_ok e.mapOk ri2.npage then ⟨ri2, [.txPtr 0], -EFAULT⟩
        else
          insertvWrite e { ri2 with rxWord := 0 } len niov (int32ofU32 ri.len) 0
            [.txPtr 0, .rxPtr 0] happy
    else insertvWrite e ri len niov (int32ofU32 ri.len) ri.tx_ptr [] happy
  else
    let d0 : Int := int32ofU32 (u32sub ri.rxWord ri.tx_ptr)
    let sp : Int := if d0 < 0 then d0 + ri.len else d0
    insertvWrite e ri len niov sp ri.tx_ptr [] happy

/-! ### `v4v_iov_count` -/

/-- The `while (niov--)` loop of `v4v_iov_count`, accumulating the iovec
lengths and failing with `EMSGSIZE` as soon as the running total exceeds
`2 GiB` (`2L*1024*1024*1024 = 2^31`). -/
def v4vIovCountLoop (fetchOk : Nat → Bool) (lens : Nat → Nat) : Nat → Nat → Nat → Int
  | 0, _, acc => acc
  | n + 1, k, acc =>
    if ¬ fetchOk k then -EFAULT
    else
      let acc1 := acc + lens k
      if acc1 > 2 ^ 31 then -EMSGSIZE
      else v4vIovCountLoop fetchOk lens n (k + 1) acc1

/-- `v4v_iov_count`. -/
def v4v_iov_count (fetchOk : Nat → Bool) (lens : Nat → Nat) (niov : Nat) : Int :=
  v4vIovCountLoop fetchOk lens niov 0 0

/-! ### Ring registration (`v4v_ring_add`) -/

/-- The guest-supplied `v4v_ring_t` header fields read by registration. -/
structure RingReg where
  magic : Nat
  len : Nat
  rx_ptr : Nat
  tx_ptr : Nat

/-- External outcomes of one `v4v_ring_add` call: guest-handle page
alignment, presence of `d->v4v`, the two guest copies, whether a ring
with the same id is already registered, the `xmalloc`, and the result of
`v4v_find_ring_mfns` (0 on success). -/
structure AddEnv where
  handleAligned : Bool
  hasV4v : Bool
  copyRingOk : Bool
  copyIdOk : Bool
  existing : Bool
  allocOk : Bool
  mfnsRet : Int

/-- `v4v_ring_add`: validation, normalization of a bogus guest `tx_ptr`
to `rx_ptr`, duplicate check, frame acquisition.  On success returns the
cached `(len, tx_ptr)` the new `ring_info` is given. -/
def v4v_ring_add (e : AddEnv) (r : RingReg) : Except Int (Nat × Nat) :=
  if ¬ e.handleAligned then .error (-EINVAL)
  else if ¬ e.hasV4v then .error (-EINVAL)
  else if ¬ e.copyRingOk then .error (-EFAULT)
  else if r.magic ≠ V4V_RING_MAGIC then .error (-EINVAL)
  else if r.len < MSG_HDR_SIZE + V4V_ROUNDUP 1 + V4V_ROUNDUP 1 ∨
      V4V_ROUNDUP r.len ≠ r.len then .error (-EINVAL)
  else if ¬ e.copyIdOk then .error (-EFAULT)
  else
    let tx := if r.tx_ptr ≥ r.len ∨ V4V_ROUNDUP r.tx_ptr ≠ r.tx_ptr then r.rx_ptr
              else r.tx_ptr
    if e.existing then .error (-EEXIST)
    else if ¬ e.allocOk then .error (-ENOMEM)
    else if e.mfnsRet ≠ 0 then .error e.mfnsRet
    else .ok (r.len, tx)

/-! ### The send path (`v4v_sendv`) -/

/-- External outcomes of one `v4v_sendv` call: presence of the caller's
and destination's `v4v` state, existence of the destination domain, the
`copy_from_guest` results inside `v4v_iov_count`, and the allocation in
`v4v_pending_requeue`. -/
structure SendEnv where
  srcHasV4v : Bool
  dstExists : Bool
  dstHasV4v : Bool
  countFetchOk : Nat → Bool
  allocOk : Bool

/-- Result of `v4v_sendv`: return value, the destination ring afterwards
(when one was found), its guest-memory write log, and whether the
destination domain was signalled. -/
structure SendOut where
  ret : Int
  ring : Option VRing
  writes : List WriteEv
  signalled : Bool

/-- `v4v_sendv`: filter check, destination-ring lookup (with the
guest-claimed sender `srcAddr.domain` as partner), iovec count, insert,
`EAGAIN`-requeue (under the real sender domain id `srcDomid`), and the
final event-channel signal on success. -/
def v4v_sendv (se : SendEnv) (e : InsertEnv) (rules : List Rule) (srcDomid : Nat)
    (srcAddr dstAddr : V4vAddr) (dstDom : V4vDomain) (niov : Nat) : SendOut :=
  if ¬ se.srcHasV4v then ⟨-EINVAL, none, [], false⟩
  else if ¬ se.dstExists then ⟨-ECONNREFUSED, none, [], false⟩
  else if v4vtables_check rules srcAddr dstAddr ≠ 0 then ⟨-ECONNREFUSED, none, [], false⟩
  else if ¬ se.dstHasV4v then ⟨-ECONNREFUSED, none, [], false⟩
  else
    match v4v_ring_find_info_by_addr dstDom dstAddr srcAddr.domain with
    | none => ⟨-ECONNREFUSED, none, [], false⟩
    | some ring =>
      let cnt := v4v_iov_count se.countFetchOk e.iovLen niov
      if cnt < 0 then ⟨cnt, some ring, [], false⟩
      else
        let out := v4v_ringbuf_insertv e ring cnt.toNat niov
        if out.ret = -EAGAIN then
          let rq := v4v_pending_requeue se.allocOk out.ring.pending srcDomid cnt.toNat
          let ret1 : Int := if rq.2 ≠ 0 then -ENOMEM else -EAGAIN
          ⟨ret1, some { out.ring with pending := rq.1 }, out.writes, false⟩
        else ⟨out.ret, some out.ring, out.writes, decide (out.ret ≥ 0)⟩

/-! ### The notify path, phase (a): drain-my-waiters -/

/-- `v4v_notify_ring`: compute the ring's current payload space, then
harvest every pending entry it satisfies onto the `to_notify` list. -/
def v4v_notify_ring (r : VRing) (to_notify : List PendingEnt) :
    VRing × List PendingEnt :=
  let space := v4v_ringbuf_payload_space r
  let pf := v4v_pending_find r.pending space to_notify
  ({ r with pending := pf.1 }, pf.2)

/-- The walk over every ring of the caller's registry performed by
`v4v_notify`, threading the global `to_notify` list. -/
def v4v_notify_rings : List VRing → List PendingEnt → List VRing × List PendingEnt
  | [], tn => ([], tn)
  | r :: rs, tn =>
    let x := v4v_notify_ring r tn
    let y := v4v_notify_rings rs x.2
    (x.1 :: y.1, y.2)

/-- All rings of a domain's registry, in the bucket-by-bucket order the
`v4v_notify` loop visits them. -/
def registryRings (d : V4vDomain) : List VRing :=
  ((List.range 32).map (fun i => d.ringHash i)).flatten

/-- Phase (a) of `v4v_notify`: walk every ring of the caller's registry
harvesting satisfied waiters, then `v4v_pending_notify` the collected
list.  Returns the updated rings (in registry order) and the sequence of
signalled sender domains. -/
def v4v_notify_phaseA (d : V4vDomain) : List VRing × List Nat :=
  let x := v4v_notify_rings (registryRings d) []
  (x.1, v4v_pending_notify x.2)

/-! ### Invariant vocabulary -/

/-- Property P3: a pending set has at most one entry per sender domain. -/
abbrev UniquePending (p : List PendingEnt) : Prop := (p.map PendingEnt.id).Nodup

/-- The pending lists reachable through the pending-set interface: the
empty list created at registration, and the images of `requeue`,
`cancel` and the harvest in `v4v_pending_find` (the only operations the
code applies to a ring's `pending` list; `v4v_pending_queue` is called
solely from `v4v_pending_requeue`). -/
inductive PendingReachable : List PendingEnt → Prop where
  | empty : PendingReachable []
  | requeue (allocOk : Bool) (src len : Nat) {p : List PendingEnt} :
      PendingReachable p → PendingReachable (v4v_pending_requeue allocOk p src len).1
  | cancel (src : Nat) {p : List PendingEnt} :
      PendingReachable p → PendingReachable (v4v_pending_cancel p src)
  | harvest (space : Nat) (acc : List PendingEnt) {p : List PendingEnt} :
      PendingReachable p → PendingReachable (v4v_pending_find p space acc).1

/-! ### Concrete instances used by witnesses and counterexamples -/

/-- An environment in which every external operation succeeds and every
iovec is 16 bytes long. -/
def envAll : InsertEnv where
  mapOk := fun _ => true
  iovFetchOk := fun _ => true
  iovHandleOk := fun _ => true
  iovLen := fun _ => 16
  copyOk := fun _ _ _ => true

/-- A 128-byte one-page ring with `tx_ptr = 0` and guest `rx_ptr = 48`. -/
def ringA : VRing where
  id := ⟨100, 1, 2⟩
  len := 128
  npage := 1
  tx_ptr := 0
  rxWord := 48
  txWord := 0
  rxReadOk := true
  pending := []

/-- Registration input whose `tx_ptr` is misaligned (forcing the
normalization to `rx_ptr`) while `rx_ptr` is itself misaligned. -/
def c4reg : RingReg where
  magic := V4V_RING_MAGIC
  len := 4096
  rx_ptr := 8
  tx_ptr := 8

/-- Registration input with a misaligned `tx_ptr` but a valid `rx_ptr`. -/
def c4regGood : RingReg where
  magic := V4V_RING_MAGIC
  len := 4096
  rx_ptr := 0
  tx_ptr := 8

/-- A registration environment in which every external step succeeds. -/
def addEnvOk : AddEnv where
  handleAligned := true
  hasV4v := true
  copyRingOk := true
  copyIdOk := true
  existing := false
  allocOk := true
  mfnsRet := 0

/-- An insert environment whose single iovec claims 368 bytes when the
copy loop re-reads it (more than the 16 bytes that were counted). -/
def c4env : InsertEnv := { envAll with iovLen := fun _ => 368 }

/-- `ringA` with an empty payload (`rx = tx = 0`). -/
def c4ring : VRing := { ringA with rxWord := 0 }

/-- Two concrete filter rules. -/
def ruleB : Rule := ⟨true, ⟨1, 2⟩, ⟨3, 4⟩⟩

def ruleC : Rule := ⟨false, ⟨5, 6⟩, ⟨7, 8⟩⟩

/-- A ring registered with the exact partner 2. -/
def ringExact : VRing := { ringA with id := ⟨5, 1, 2⟩ }

/-- The same address registered with the wildcard partner. -/
def ringWild : VRing := { ringA with id := ⟨5, 1, V4V_DOMID_ANY⟩ }

/-- A registry of domain 1 holding both `ringExact` and `ringWild`. -/
def domA : V4vDomain where
  domid := 1
  evtchnPort := 7
  ringHash := fun i =>
    (if i = v4v_hash_fn ⟨5, 1, 2⟩ then [ringExact] else []) ++
    (if i = v4v_hash_fn ⟨5, 1, V4V_DOMID_ANY⟩ then [ringWild] else [])

/-- `ringA` with two waiters: one satisfiable (its 16-byte payload space
covers 5 bytes) and one not (1000 bytes). -/
def ringP : VRing := { ringA with pending := [⟨7, 5⟩, ⟨8, 1000⟩] }

/-- A registry holding only `ringP`, in bucket 0. -/
def domB : V4vDomain where
  domid := 1
  evtchnPort := 7
  ringHash := fun i => if i = 0 then [ringP] else []

/-- A send environment with every check passing and every descriptor
fetch succeeding. -/
def seC5 : SendEnv where
  srcHasV4v := true
  dstExists := true
  dstHasV4v := true
  countFetchOk := fun _ => true
  allocOk := true

/-- `envAll` with gigabyte-sized iovec descriptors, so that three of
them exceed the 2 GiB cap. -/
def eBig : InsertEnv := { envAll with iovLen := fun _ => 2 ^ 30 }

/-! ## Theorems -/

/-- C8: for every `(src, dst)` pair and rule list, the filter check
returns the accept/reject verdict of the first rule (in list order)
whose four fields each equal the corresponding address field or are the
wildcard, and accepts when no rule matches (`0` = accept, `1` =
reject). -/
theorem c8_filter_first_match (rules : List Rule) (src dst : V4vAddr) :
    v4vtables_check rules src dst =
      match rules.find? (fun r => ruleMatches r src dst) with
      | none => 0
      | some r => if r.accept then 0 else 1 := by
  induction rules with
  | nil => rfl
  | cons r rest ih =>
    cases hr : ruleMatches r src dst with
    | true => simp [v4vtables_check, List.find?_cons, hr]
    | false => simp [v4vtables_check, List.find?_cons, hr, ih]

/-- `tablesAddIndex` of a 1-based position 1 (walk argument 0) is the
list head. -/
theorem tablesAddIndex_zero (n : Nat) : tablesAddIndex n 0 = 0 := by
  cases n <;> simp [tablesAddIndex]

/-- When `position` exceeds the list length, the `v4vtables_del` walk
exhausts the list and leaves `position - length` in the counter. -/
theorem delWalk_snd_of_gt (l : List Rule) (p : Int) (h : (l.length : Int) < p) :
    (delWalk l p).2 = p - l.length := by
  induction l generalizing p with
  | nil => simp [delWalk]
  | cons x t ih =>
    have hp : ¬ p = 0 := by simp at h; omega
    have ht : (t.length : Int) < p - 1 := by simp at h ⊢; omega
    have := ih (p - 1) ht
    simp only [delWalk, hp, if_false]
    rcases hdw : delWalk t (p - 1) with ⟨oi, q⟩
    rw [hdw] at this
    cases oi <;> simp_all <;> omega

/-- C10 (implicit): filter-rule deletion by position is 0-based while
insertion is 1-based: on a non-empty list `tables_del` with position 0
deletes the first rule (in particular the rule `tables_add` inserted at
position 1), a position greater than the list length deletes nothing,
and in every such case `tables_del` returns 0. -/
theorem c10_tables_del_zero_based :
    (∀ (l : List Rule) (ra : Option Rule) (fo : Bool), l ≠ [] →
       v4vtables_del fo l ra 0 = (l.tail, 0)) ∧
    (∀ (l : List Rule) (r : Rule) (ra : Option Rule) (fo : Bool),
       v4vtables_del fo (v4vtables_add l r 1) ra 0 = (l, 0)) ∧
    (∀ (l : List Rule) (ra : Option Rule) (fo : Bool) (p : Int),
       (l.length : Int) < p → v4vtables_del fo l ra p = (l, 0)) := by
  have hzero : ∀ (l : List Rule) (ra : Option Rule) (fo : Bool), l ≠ [] →
      v4vtables_del fo l ra 0 = (l.tail, 0) := by
    intro l ra fo hl
    cases l with
    | nil => exact absurd rfl hl
    | cons x t => simp [v4vtables_del, delWalk]
  refine ⟨hzero, ?_, ?_⟩
  · intro l r ra fo
    have : v4vtables_add l r 1 = r :: l := by
      simp [v4vtables_add, tablesAddIndex_zero]
    rw [this, hzero (r :: l) ra fo (by simp)]
    rfl
  · intro l ra fo p hp
    have hne : p ≠ -1 := by
      have : (0 : Int) ≤ l.length := by positivity
      omega
    have hsnd : (delWalk l p).2 = p - l.length := delWalk_snd_of_gt l p hp
    have hnz : (delWalk l p).2 ≠ 0 := by omega
    simp [v4vtables_del, hne, hnz]

/-- Witness for C10 at concrete inputs: deleting position 0 from a
two-rule list removes the first rule, and position 2 on a one-rule list
deletes nothing; both calls return 0. -/
theorem c10_tables_del_zero_based_witness :
    v4vtables_del true [ruleB, ruleC] none 0 = ([ruleC], 0) ∧
    v4vtables_del true (v4vtables_add [ruleB] ruleC 1) none 0 = ([ruleB], 0) ∧
    v4vtables_del true [ruleB] none 2 = ([ruleB], 0) :=
  ⟨c10_tables_del_zero_based.1 [ruleB, ruleC] none true (by decide),
   c10_tables_del_zero_based.2.1 [ruleB] ruleC none true,
   c10_tables_del_zero_based.2.2 [ruleB] none true 2 (by decide)⟩

/-- C7: lookup by destination first searches for a ring whose partner is
the claimed sender and returns it when present (so when both an exact
and a wildcard ring exist, the exact-partner ring wins); only when no
exact-partner ring exists does it fall back to `partner =
V4V_DOMID_ANY`. -/
theorem c7_lookup_exact_wins :
    (∀ (d : V4vDomain) (a : V4vAddr) (p : Nat) (r : VRing),
       v4v_ring_find_info d ⟨a.port, d.domid, p⟩ = some r →
       v4v_ring_find_info_by_addr d a p = some r ∧
       r.id.port = a.port ∧ r.id.domain = d.domid ∧ r.id.partner = p) ∧
    (∀ (d : V4vDomain) (a : V4vAddr) (p : Nat),
       v4v_ring_find_info d ⟨a.port, d.domid, p⟩ = none →
       v4v_ring_find_info_by_addr d a p =
         v4v_ring_find_info d ⟨a.port, d.domid, V4V_DOMID_ANY⟩) := by
  constructor
  · intro d a p r h
    refine ⟨by simp [v4v_ring_find_info_by_addr, h], ?_⟩
    have hp := List.find?_some (by simpa [v4v_ring_find_info] using h)
    simp only [Bool.and_eq_true, beq_iff_eq] at hp
    exact ⟨hp.1.1, hp.1.2, hp.2⟩
  · intro d a p h
    simp [v4v_ring_find_info_by_addr, h]

/-- Witness for C7: in a registry holding both the exact-partner ring
and the wildcard ring for port 5, lookup with claimed sender 2 returns
the exact-partner ring, and with an unregistered claimed sender 9 it
returns the wildcard ring. -/
theorem c7_lookup_exact_wins_witness :
    (v4v_ring_find_info_by_addr domA ⟨2, 5⟩ 2 = some ringExact ∧
       ringExact.id.partner = 2) ∧
    v4v_ring_find_info_by_addr domA ⟨9, 5⟩ 9 =
      v4v_ring_find_info domA ⟨5, 1, V4V_DOMID_ANY⟩ :=
  ⟨⟨(c7_lookup_exact_wins.1 domA ⟨2, 5⟩ 2 ringExact (by decide)).1,
    (c7_lookup_exact_wins.1 domA ⟨2, 5⟩ 2 ringExact (by decide)).2.2.2⟩,
   c7_lookup_exact_wins.2 domA ⟨9, 5⟩ 9 (by decide)⟩

/-- `updateFirst` does not change the sequence of sender ids. -/
theorem updateFirst_map_id (p : List PendingEnt) (src len : Nat) :
    (updateFirst p src len).map PendingEnt.id = p.map PendingEnt.id := by
  induction p with
  | nil => rfl
  | cons e rest ih =>
    by_cases h : e.id = src <;> simp [updateFirst, h, ih]

/-- The harvested remainder is the sublist of entries the space does not
satisfy. -/
theorem pending_find_fst (p : List PendingEnt) (space : Nat) (acc : List PendingEnt) :
    (v4v_pending_find p space acc).1 =
      p.filter (fun e => decide (space < e.len)) := by
  induction p generalizing acc with
  | nil => rfl
  | cons e rest ih =>
    by_cases h : space ≥ e.len
    · have : ¬ space < e.len := by omega
      simp [v4v_pending_find, h, ih, List.filter_cons, this]
    · have : space < e.len := by omega
      simp [v4v_pending_find, h, ih, List.filter_cons, this]

/-- The harvest moves exactly the satisfied entries onto `to_notify`
(prepending them one by one, hence the reversal). -/
theorem pending_find_snd (p : List PendingEnt) (space : Nat) (acc : List PendingEnt) :
    (v4v_pending_find p space acc).2 =
      (p.filter (fun e => decide (e.len ≤ space))).reverse ++ acc := by
  induction p generalizing acc with
  | nil => rfl
  | cons e rest ih =>
    by_cases h : space ≥ e.len
    · have : e.len ≤ space := h
      simp [v4v_pending_find, h, ih, List.filter_cons, this]
    · have : ¬ e.len ≤ space := by omega
      simp [v4v_pending_find, h, ih, List.filter_cons, this]

/-- `v4v_pending_requeue` preserves P3. -/
theorem uniquePending_requeue (allocOk : Bool) (p : List PendingEnt) (src len : Nat)
    (h : UniquePending p) : UniquePending (v4v_pending_requeue allocOk p src len).1 := by
  unfold v4v_pending_requeue v4v_pending_queue
  cases hf : p.any (fun e => e.id == src) with
  | true => simpa [UniquePending, updateFirst_map_id] using h
  | false =>
    cases hao : allocOk with
    | true =>
      simp only [Bool.false_eq_true, if_false, if_true, UniquePending, List.map_cons]
      refine List.nodup_cons.mpr ⟨?_, h⟩
      have hf2 := List.any_eq_false.mp hf
      intro hmem
      obtain ⟨x, hx, hid⟩ := List.mem_map.mp hmem
      exact hf2 x hx (by simpa using hid)
    | false => simpa using h

/-- `v4v_pending_cancel` preserves P3. -/
theorem uniquePending_cancel (p : List PendingEnt) (src : Nat)
    (h : UniquePending p) : UniquePending (v4v_pending_cancel p src) := by
  exact ((List.filter_sublist p).map PendingEnt.id).nodup h

/-- The harvest remainder preserves P3. -/
theorem uniquePending_harvest (p : List PendingEnt) (space : Nat) (acc : List PendingEnt)
    (h : UniquePending p) : UniquePending (v4v_pending_find p space acc).1 := by
  rw [pending_find_fst]
  exact ((List.filter_sublist p).map PendingEnt.id).nodup h

/-- Under P3, updating the entry of a present sender replaces exactly
that entry's requirement by the maximum of old and new. -/
theorem updateFirst_eq_map (p : List PendingEnt) (src len : Nat)
    (h : UniquePending p) (e : PendingEnt) (he : e ∈ p) (hid : e.id = src) :
    updateFirst p src len =
      p.map (fun x => if x.id = src then ⟨src, max x.len len⟩ else x) := by
  induction p with
  | nil => cases he
  | cons x rest ih =>
    rcases List.nodup_cons.mp h with ⟨hx, hrest⟩
    by_cases hxs : x.id = src
    · have hmax : (if x.len < len then len else x.len) = max x.len len := by
        rw [Nat.max_def]; split_ifs <;> omega
      have hnone : ∀ y ∈ rest, y.id ≠ src := by
        intro y hy hys
        apply hx
        rw [hxs, ← hys]
        exact List.mem_map_of_mem PendingEnt.id hy
      have hrw : rest.map (fun x => if x.id = src then (⟨src, max x.len len⟩ : PendingEnt) else x)
          = rest := by
        conv_rhs => rw [← List.map_id rest]
        apply List.map_congr_left
        intro y hy
        simp [hnone y hy, id]
      simp only [updateFirst, List.map_cons, hrw, if_pos hxs]
      rw [hmax]
      cases x with
      | mk xid xlen => simp_all
    · have he' : e ∈ rest := by
        cases List.mem_cons.mp he with
        | inl h0 => exact absurd (h0 ▸ hid) hxs
        | inr h0 => exact h0
      simp only [updateFirst, hxs, if_false, List.map_cons, ih hrest he']

/-- C9: every pending list reachable through the pending-set operations
has at most one entry per sender domain (P3), and enqueueing a
requirement for a sender that already has an entry keeps the maximum of
the existing and new required lengths. -/
theorem c9_pending_unique_max :
    (∀ p, PendingReachable p → UniquePending p) ∧
    (∀ (allocOk : Bool) (p : List PendingEnt) (src len : Nat) (e : PendingEnt),
       UniquePending p → e ∈ p → e.id = src →
       (v4v_pending_requeue allocOk p src len).1 =
         p.map (fun x => if x.id = src then ⟨src, max x.len len⟩ else x)) := by
  constructor
  · intro p hp
    induction hp with
    | empty => exact List.nodup_nil
    | requeue allocOk src len _ ih => exact uniquePending_requeue _ _ _ _ ih
    | cancel src _ ih => exact uniquePending_cancel _ _ ih
    | harvest space acc _ ih => exact uniquePending_harvest _ _ _ ih
  · intro allocOk p src len e h he hid
    have hf : p.any (fun x => x.id == src) = true := by
      simp only [List.any_eq_true, beq_iff_eq]
      exact ⟨e, he, hid⟩
    simp only [v4v_pending_requeue, hf, if_true]
    exact updateFirst_eq_map p src len h e he hid

/-- Witness for C9: a pending set built by two requeues of the same
sender is a singleton holding the larger requirement, and is P3-unique. -/
theorem c9_pending_unique_max_witness :
    UniquePending (v4v_pending_requeue true [⟨3, 10⟩] 3 20).1 ∧
    (v4v_pending_requeue true [⟨3, 10⟩] 3 20).1 = [⟨3, 20⟩] := by
  constructor
  · exact c9_pending_unique_max.1 _
      (PendingReachable.requeue true 3 20
        (PendingReachable.requeue true 3 10 PendingReachable.empty))
  · rw [c9_pending_unique_max.2 true [⟨3, 10⟩] 3 20 ⟨3, 10⟩ (by decide) (by decide) rfl]
    decide

/-- Characterization of the registry walk of `v4v_notify`: every ring
keeps exactly the pending entries its current payload space does not
satisfy, and the collected `to_notify` list is (as a multiset) the
satisfied entries of all rings prepended to the incoming accumulator. -/
theorem notify_rings_spec (rs : List VRing) (tn : List PendingEnt) :
    (v4v_notify_rings rs tn).1 = rs.map (fun r =>
      { r with pending := r.pending.filter (fun e =>
          decide (v4v_ringbuf_payload_space r < e.len)) }) ∧
    (v4v_notify_rings rs tn).2.Perm
      ((rs.map (fun r => r.pending.filter (fun e =>
          decide (e.len ≤ v4v_ringbuf_payload_space r)))).flatten ++ tn) := by
  induction rs generalizing tn with
  | nil => simp [v4v_notify_rings]
  | cons r rest ih =>
    obtain ⟨ih1, ih2⟩ :=
      ih ((r.pending.filter (fun e =>
        decide (e.len ≤ v4v_ringbuf_payload_space r))).reverse ++ tn)
    constructor
    · simp only [v4v_notify_rings, v4v_notify_ring, pending_find_fst, pending_find_snd,
        List.map_cons]
      rw [ih1]
    · simp only [v4v_notify_rings, v4v_notify_ring, pending_find_snd, List.map_cons,
        List.flatten_cons]
      refine ih2.trans ?_
      rw [List.append_assoc]
      refine (List.Perm.append_left _ ?_).trans
        (List.perm_append_comm_assoc _ _ _).symm
      exact (List.reverse_perm _).append_right tn

/-- C6: for every ring of the caller's registry, the drain-my-waiters
phase of notify removes from the ring's pending set exactly the entries
whose required length is at most the ring's current payload space
(entries above it remain), and the drained `to_notify` list signals the
sender domain of every removed entry. -/
theorem c6_notify_drain (d : V4vDomain) :
    ((v4v_notify_phaseA d).1 = (registryRings d).map (fun r =>
      { r with pending := r.pending.filter (fun e =>
          decide (v4v_ringbuf_payload_space r < e.len)) })) ∧
    ((v4v_notify_phaseA d).2.Perm
      (((registryRings d).map (fun r => r.pending.filter (fun e =>
          decide (e.len ≤ v4v_ringbuf_payload_space r)))).flatten.map PendingEnt.id)) ∧
    (∀ r ∈ registryRings d, ∀ e ∈ r.pending,
       e.len ≤ v4v_ringbuf_payload_space r → e.id ∈ (v4v_notify_phaseA d).2) := by
  obtain ⟨h1, h2⟩ := notify_rings_spec (registryRings d) []
  have h2' : (v4v_notify_phaseA d).2.Perm
      (((registryRings d).map (fun r => r.pending.filter (fun e =>
          decide (e.len ≤ v4v_ringbuf_payload_space r)))).flatten.map PendingEnt.id) := by
    have := h2.map PendingEnt.id
    simpa [v4v_notify_phaseA, v4v_pending_notify] using this
  refine ⟨h1, h2', ?_⟩
  intro r hr e he hle
  refine h2'.mem_iff.mpr ?_
  simp only [List.mem_map, List.mem_flatten]
  refine ⟨e, ⟨r.pending.filter (fun e =>
    decide (e.len ≤ v4v_ringbuf_payload_space r)), ⟨?_, ?_⟩⟩, rfl⟩
  · exact ⟨r, hr, rfl⟩
  · exact List.mem_filter.mpr ⟨he, by simpa⟩

/-- Witness for C6: a registry with one ring whose payload space is 16
and whose waiters require 5 and 1000 bytes; the satisfied sender 7 is
signalled. -/
theorem c6_notify_drain_witness : (7 : Nat) ∈ (v4v_notify_phaseA domB).2 :=
  (c6_notify_drain domB).2.2 ringP (by decide) ⟨7, 5⟩ (by decide) (by decide)

/-! ### Helper lemmas about the insertion engine -/

/-- `int32` reinterpretation of a `u32` subtraction with a small
non-negative result. -/
theorem int32ofU32_u32sub_of_le (a b : Nat) (h : b ≤ a) (h2 : a - b < 2 ^ 31) :
    int32ofU32 (u32sub a b) = ((a - b : Nat) : Int) := by
  have h0 : ((a : Int) - b).emod (2 ^ 32) = (a : Int) - b :=
    Int.emod_eq_of_lt (by omega) (by omega)
  unfold u32sub
  rw [h0]
  unfold int32ofU32
  omega

/-- `int32` reinterpretation of a `u32` subtraction with a small
negative result. -/
theorem int32ofU32_u32sub_of_gt (a b : Nat) (h : a < b) (h2 : b - a < 2 ^ 31) :
    int32ofU32 (u32sub a b) = (a : Int) - b := by
  have h1 : ((a : Int) - b + 2 ^ 32).emod (2 ^ 32) = (a : Int) - b + 2 ^ 32 :=
    Int.emod_eq_of_lt (by omega) (by omega)
  have h2 : ((a : Int) - b + 2 ^ 32).emod (2 ^ 32) = ((a : Int) - b).emod (2 ^ 32) := by
    have hm := Int.add_mul_emod_self_left ((a : Int) - b) (2 ^ 32) 1
    rw [mul_one] at hm
    exact hm
  have h0 : ((a : Int) - b).emod (2 ^ 32) = (a : Int) - b + 2 ^ 32 := by
    rw [← h2]; exact h1
  unfold u32sub
  rw [h0]
  unfold int32ofU32
  omega

/-- For a `u32` below `2^31`, the `int32` cast is the identity. -/
theorem int32ofU32_of_lt (a : Nat) (h : a < 2 ^ 31) : int32ofU32 a = (a : Int) := by
  unfold int32ofU32
  omega

/-- A non-negative C `int` is unchanged by the conversion to `size_t`. -/
theorem intAsSizeT_of_nonneg (sp : Int) (h : 0 ≤ sp) : intAsSizeT sp = sp := by
  unfold intAsSizeT
  omega

/-- The ring-header read maps page 0 and nothing else (offset 0, 64
bytes: a single chunk). -/
theorem header_read_eq_map0 (mapOk : Nat → Bool) (npage : Nat) :
    v4v_memcpy_from_guest_ring_ok mapOk npage 0 RING_HDR_SIZE =
      v4v_ring_map_page mapOk npage 0 := by
  unfold v4v_memcpy_from_guest_ring_ok
  have e1 : ((0 : Nat) >>> PAGE_SHIFT) % npage = 0 := by simp
  have e2 : (0 : Nat) &&& (PAGE_SIZE - 1) = 0 := by decide
  rw [e1, e2]
  show memcpyRingLoop mapOk (fun _ => true) npage (RING_HDR_SIZE + 1) 0 0 RING_HDR_SIZE 0 = _
  unfold memcpyRingLoop
  norm_num [RING_HDR_SIZE, PAGE_SIZE]

/-- A message-header write at the start of the payload area (ring offset
64, 16 bytes) is a single chunk on page 0. -/
theorem mh_write_at_0 (mapOk copyOk : Nat → Bool) (npage : Nat) :
    v4v_memcpy_to_guest_ring_ok mapOk copyOk npage RING_HDR_SIZE MSG_HDR_SIZE =
      (v4v_ring_map_page mapOk npage 0 && copyOk 0) := by
  unfold v4v_memcpy_to_guest_ring_ok
  have e1 : (RING_HDR_SIZE >>> PAGE_SHIFT) % npage = 0 := by
    have : RING_HDR_SIZE >>> PAGE_SHIFT = 0 := by decide
    simp [this]
  have e2 : RING_HDR_SIZE &&& (PAGE_SIZE - 1) = 64 := by decide
  rw [e1, e2]
  show memcpyRingLoop mapOk copyOk npage (MSG_HDR_SIZE + 1) 0 64 MSG_HDR_SIZE 0 = _
  unfold memcpyRingLoop
  norm_num [MSG_HDR_SIZE, PAGE_SIZE]

/-- The iovec loop either preserves `ret` or fails with `EFAULT`. -/
theorem insertvIovLoop_ret (e : InsertEnv) (L P : Nat) :
    ∀ (n k : Nat) (st : IovLoopSt),
      (insertvIovLoop e L P n k st).ret = st.ret ∨
      (insertvIovLoop e L P n k st).ret = -EFAULT := by
  intro n
  induction n with
  | zero => intro k st; exact Or.inl rfl
  | succ m ih =>
    intro k st
    simp only [insertvIovLoop]
    split_ifs <;>
      first
        | exact Or.inr rfl
        | exact (ih _ _).imp (fun h => h) (fun h => h)

/-- The iovec loop only appends to the write log. -/
theorem insertvIovLoop_writes (e : InsertEnv) (L P : Nat) :
    ∀ (n k : Nat) (st : IovLoopSt),
      st.writes <+: (insertvIovLoop e L P n k st).writes := by
  intro n
  induction n with
  | zero => intro k st; exact List.prefix_refl _
  | succ m ih =>
    intro k st
    simp only [insertvIovLoop]
    split_ifs <;>
      first
        | exact List.prefix_refl _
        | exact ⟨_, rfl⟩
        | exact flip List.IsPrefix.trans (ih _ _) ⟨_, rfl⟩
        | exact flip List.IsPrefix.trans (ih _ _) ⟨_, (List.append_assoc _ _ _).symm⟩

/-- Exhaustive case analysis of the epilogue. -/
theorem insertvFinish_cases (e : InsertEnv) (ri : VRing) (st : IovLoopSt) (happy : Int) :
    (st.ret ≠ 0 ∧ insertvFinish e ri st happy = ⟨ri, st.writes, st.ret⟩) ∨
    (st.ret = 0 ∧ ¬ v4v_update_ptr_ok e.mapOk ri.npage = true ∧
       insertvFinish e ri st happy =
         ⟨{ ri with tx_ptr := insertvFinishTx ri st }, st.writes, -EFAULT⟩) ∨
    (st.ret = 0 ∧ v4v_update_ptr_ok e.mapOk ri.npage = true ∧
       insertvFinish e ri st happy =
         ⟨{ ri with tx_ptr := insertvFinishTx ri st, txWord := insertvFinishTx ri st },
          st.writes ++ [WriteEv.txPtr (insertvFinishTx ri st)], happy⟩) := by
  by_cases h : st.ret = 0
  · by_cases hu : v4v_update_ptr_ok e.mapOk ri.npage = true
    · refine Or.inr (Or.inr ⟨h, hu, ?_⟩)
      simp only [insertvFinish, h]
      rw [if_neg (by simp), if_neg (by simpa using hu)]
    · refine Or.inr (Or.inl ⟨h, hu, ?_⟩)
      simp only [insertvFinish, h]
      rw [if_neg (by simp), if_pos (by simpa using hu)]
  · refine Or.inl ⟨h, ?_⟩
    simp only [insertvFinish]
    rw [if_pos h]

/-- Exhaustive case analysis of the tail of the insertion engine: the
`EAGAIN` test fires (nothing written, state unchanged); the
message-header write fails (`EFAULT`, state unchanged); or the header is
written and the iovec loop runs, finishing through the epilogue. -/
theorem insertvWrite_cases (e : InsertEnv) (ri : VRing) (len niov : Nat) (sp : Int)
    (txLocal : Nat) (writes : List WriteEv) (happy : Int) :
    ((V4V_ROUNDUP len + MSG_HDR_SIZE : Int) ≥ intAsSizeT sp ∧
       insertvWrite e ri len niov sp txLocal writes happy = ⟨ri, writes, -EAGAIN⟩) ∨
    (¬ (V4V_ROUNDUP len + MSG_HDR_SIZE : Int) ≥ intAsSizeT sp ∧
       ¬ v4v_memcpy_to_guest_ring_ok e.mapOk (fun _ => true) ri.npage
           (txLocal + RING_HDR_SIZE) MSG_HDR_SIZE = true ∧
       insertvWrite e ri len niov sp txLocal writes happy = ⟨ri, writes, -EFAULT⟩) ∨
    (¬ (V4V_ROUNDUP len + MSG_HDR_SIZE : Int) ≥ intAsSizeT sp ∧
       v4v_memcpy_to_guest_ring_ok e.mapOk (fun _ => true) ri.npage
           (txLocal + RING_HDR_SIZE) MSG_HDR_SIZE = true ∧
       ∃ st : IovLoopSt,
         st = insertvIovLoop e ri.len ri.npage niov 0
           ⟨if txLocal + MSG_HDR_SIZE = ri.len then 0 else txLocal + MSG_HDR_SIZE,
            writes ++ [WriteEv.ringData (txLocal + RING_HDR_SIZE) MSG_HDR_SIZE], 0⟩ ∧
         (st.ret = 0 ∨ st.ret = -EFAULT) ∧
         insertvWrite e ri len niov sp txLocal writes happy = insertvFinish e ri st happy) := by
  by_cases h1 : (V4V_ROUNDUP len + MSG_HDR_SIZE : Int) ≥ intAsSizeT sp
  · refine Or.inl ⟨h1, ?_⟩
    simp only [insertvWrite]
    rw [if_pos h1]
  · by_cases h2 : v4v_memcpy_to_guest_ring_ok e.mapOk (fun _ => true) ri.npage
        (txLocal + RING_HDR_SIZE) MSG_HDR_SIZE = true
    · refine Or.inr (Or.inr ⟨h1, h2, ?_⟩)
      refine ⟨_, rfl, ?_, ?_⟩
      · exact insertvIovLoop_ret e ri.len ri.npage niov 0 _
      · simp only [insertvWrite]
        rw [if_neg h1, if_neg (by simpa using h2)]
    · refine Or.inr (Or.inl ⟨h1, h2, ?_⟩)
      simp only [insertvWrite]
      rw [if_neg h1, if_pos (by simpa using h2)]

/-- Exhaustive case analysis of `v4v_ringbuf_insertv`: the `EMSGSIZE`
pre-check; a failed header read; the empty-ring reset (whose two
pointer write-backs cannot fail once the header read mapped page 0);
the already-zero empty ring; and the `rx != tx` gap computation. -/
theorem v4v_ringbuf_insertv_cases (e : InsertEnv) (ri : VRing) (len niov : Nat) :
    (V4V_ROUNDUP len + MSG_HDR_SIZE ≥ ri.len ∧
       v4v_ringbuf_insertv e ri len niov = ⟨ri, [], -EMSGSIZE⟩) ∨
    (¬ V4V_ROUNDUP len + MSG_HDR_SIZE ≥ ri.len ∧
       ¬ v4v_ring_map_page e.mapOk ri.npage 0 = true ∧
       v4v_ringbuf_insertv e ri len niov = ⟨ri, [], -EFAULT⟩) ∨
    (¬ V4V_ROUNDUP len + MSG_HDR_SIZE ≥ ri.len ∧
       v4v_ring_map_page e.mapOk ri.npage 0 = true ∧
       ri.rxWord = ri.tx_ptr ∧ ri.tx_ptr ≠ 0 ∧
       v4v_ringbuf_insertv e ri len niov =
         insertvWrite e { ri with tx_ptr := 0, txWord := 0, rxWord := 0 } len niov
           (int32ofU32 ri.len) 0 [WriteEv.txPtr 0, WriteEv.rxPtr 0] len) ∨
    (¬ V4V_ROUNDUP len + MSG_HDR_SIZE ≥ ri.len ∧
       v4v_ring_map_page e.mapOk ri.npage 0 = true ∧
       ri.rxWord = ri.tx_ptr ∧ ri.tx_ptr = 0 ∧
       v4v_ringbuf_insertv e ri len niov =
         insertvWrite e ri len niov (int32ofU32 ri.len) ri.tx_ptr [] len) ∨
    (¬ V4V_ROUNDUP len + MSG_HDR_SIZE ≥ ri.len ∧
       v4v_ring_map_page e.mapOk ri.npage 0 = true ∧
       ri.rxWord ≠ ri.tx_ptr ∧
       v4v_ringbuf_insertv e ri len niov =
         insertvWrite e ri len niov
           (if int32ofU32 (u32sub ri.rxWord ri.tx_ptr) < 0 then
              int32ofU32 (u32sub ri.rxWord ri.tx_ptr) + ri.len
            else int32ofU32 (u32sub ri.rxWord ri.tx_ptr))
           ri.tx_ptr [] len) := by
  by_cases h1 : V4V_ROUNDUP len + MSG_HDR_SIZE ≥ ri.len
  · refine Or.inl ⟨h1, ?_⟩
    simp only [v4v_ringbuf_insertv]
    rw [if_pos h1]
  · by_cases h2 : v4v_ring_map_page e.mapOk ri.npage 0 = true
    · by_cases h3 : ri.rxWord = ri.tx_ptr
      · by_cases h4 : ri.tx_ptr = 0
        · refine Or.inr (Or.inr (Or.inr (Or.inl ⟨h1, h2, h3, h4, ?_⟩)))
          simp only [v4v_ringbuf_insertv]
          rw [if_neg h1, if_neg (by simp [header_read_eq_map0, h2]), if_pos h3,
            if_neg (by simpa using h4)]
        · refine Or.inr (Or.inr (Or.inl ⟨h1, h2, h3, h4, ?_⟩))
          simp only [v4v_ringbuf_insertv]
          rw [if_neg h1, if_neg (by simp [header_read_eq_map0, h2]), if_pos h3, if_pos h4,
            if_neg (by simp [v4v_update_ptr_ok, h2]), if_neg (by simp [v4v_update_ptr_ok, h2])]
      · refine Or.inr (Or.inr (Or.inr (Or.inr ⟨h1, h2, h3, ?_⟩)))
        simp only [v4v_ringbuf_insertv]
        rw [if_neg h1, if_neg (by simp [header_read_eq_map0, h2]), if_neg h3]
    · refine Or.inr (Or.inl ⟨h1, h2, ?_⟩)
      simp only [v4v_ringbuf_insertv]
      rw [if_neg h1, if_pos (by simpa [header_read_eq_map0] using h2)]

/-- On any error return, the tail of the engine has not touched the ring
state, provided the guest `tx_ptr` write-back cannot fail (which is the
situation inside `v4v_ringbuf_insertv`: the header read already mapped
page 0). -/
theorem insertvWrite_err_unchanged (e : InsertEnv) (ri : VRing) (len niov : Nat) (sp : Int)
    (txLocal : Nat) (writes : List WriteEv)
    (hupd : v4v_update_ptr_ok e.mapOk ri.npage = true)
    (herr : (insertvWrite e ri len niov sp txLocal writes (len : Int)).ret < 0) :
    (insertvWrite e ri len niov sp txLocal writes (len : Int)).ring = ri := by
  rcases insertvWrite_cases e ri len niov sp txLocal writes (len : Int) with
    ⟨_, heq⟩ | ⟨_, _, heq⟩ | ⟨_, _, st, hst, hr, heq⟩
  · rw [heq]
  · rw [heq]
  · rw [heq]
    rcases insertvFinish_cases e ri st (len : Int) with
      ⟨_, hfe⟩ | ⟨_, hu, _⟩ | ⟨_, _, hfe⟩
    · rw [hfe]
    · exact absurd hupd hu
    · exfalso
      rw [heq, hfe] at herr
      simp only [] at herr
      omega

/-- C2: every erroring insert call in which the empty-ring pointer reset
did not fire leaves the ring's logical state unchanged: the cached
`RingInfo.tx_ptr`, the guest-visible `tx_ptr` word and the guest `rx_ptr`
word all retain their pre-call values.  (A failed final write-back
cannot occur: the header read already mapped page 0, and mappings are
cached for the whole call.) -/
theorem c2_error_leaves_ring_unchanged (e : InsertEnv) (ri : VRing) (len niov : Nat)
    (hnr : ¬ (ri.rxWord = ri.tx_ptr ∧ ri.tx_ptr ≠ 0))
    (herr : (v4v_ringbuf_insertv e ri len niov).ret < 0) :
    (v4v_ringbuf_insertv e ri len niov).ring.tx_ptr = ri.tx_ptr ∧
    (v4v_ringbuf_insertv e ri len niov).ring.txWord = ri.txWord ∧
    (v4v_ringbuf_insertv e ri len niov).ring.rxWord = ri.rxWord := by
  rcases v4v_ringbuf_insertv_cases e ri len niov with
    ⟨_, heq⟩ | ⟨_, _, heq⟩ | ⟨_, _, h3, h4, _⟩ | ⟨_, h2, _, _, heq⟩ | ⟨_, h2, _, heq⟩
  · rw [heq]; exact ⟨rfl, rfl, rfl⟩
  · rw [heq]; exact ⟨rfl, rfl, rfl⟩
  · exact absurd ⟨h3, h4⟩ hnr
  · rw [heq] at herr ⊢
    have hu : v4v_update_ptr_ok e.mapOk ri.npage = true := by
      simpa [v4v_update_ptr_ok] using h2
    rw [insertvWrite_err_unchanged e ri len niov _ _ _ hu herr]
    exact ⟨rfl, rfl, rfl⟩
  · rw [heq] at herr ⊢
    have hu : v4v_update_ptr_ok e.mapOk ri.npage = true := by
      simpa [v4v_update_ptr_ok] using h2
    rw [insertvWrite_err_unchanged e ri len niov _ _ _ hu herr]
    exact ⟨rfl, rfl, rfl⟩

/-- Witness for C2: a full ring (`rx = 16`, `tx = 0` leaves no room for
a 16-byte message) makes the insert fail with `EAGAIN`, and the ring
state is untouched. -/
theorem c2_error_leaves_ring_unchanged_witness :
    (v4v_ringbuf_insertv envAll { ringA with rxWord := 16 } 16 1).ring.tx_ptr =
      ({ ringA with rxWord := 16 } : VRing).tx_ptr ∧
    (v4v_ringbuf_insertv envAll { ringA with rxWord := 16 } 16 1).ring.txWord =
      ({ ringA with rxWord := 16 } : VRing).txWord ∧
    (v4v_ringbuf_insertv envAll { ringA with rxWord := 16 } 16 1).ring.rxWord =
      ({ ringA with rxWord := 16 } : VRing).rxWord :=
  c2_error_leaves_ring_unchanged envAll { ringA with rxWord := 16 } 16 1
    (by decide) (by decide)

/-- The gap that the engine computes for `rx != tx` (an `int32`
difference, corrected by `+ len` when negative) equals the modular
formula `(rx - tx + len) mod len` in the well-formed range. -/
theorem sp_eq_mod (rx tx len : Nat) (hrx : rx < len) (htx : tx < len) (hne : rx ≠ tx)
    (hlen : len < 2 ^ 31) :
    (if int32ofU32 (u32sub rx tx) < 0 then int32ofU32 (u32sub rx tx) + len
     else int32ofU32 (u32sub rx tx)) = (((rx + len - tx) % len : Nat) : Int) := by
  rcases Nat.lt_or_ge rx tx with h | h
  · rw [int32ofU32_u32sub_of_gt rx tx h (by omega)]
    rw [if_pos (by omega)]
    have hm : (rx + len - tx) % len = rx + len - tx := Nat.mod_eq_of_lt (by omega)
    rw [hm]
    omega
  · have hgt : tx < rx := by omega
    rw [int32ofU32_u32sub_of_le rx tx (by omega) (by omega)]
    rw [if_neg (by omega)]
    have hm : (rx + len - tx) % len = rx - tx := by
      have h1 : rx + len - tx = (rx - tx) + len := by omega
      rw [h1, Nat.add_mod_right]
      exact Nat.mod_eq_of_lt (by omega)
    rw [hm]

/-- The tail of the engine returns `EAGAIN` exactly when
`V4V_ROUNDUP(len) + sizeof(mh) >= sp`: no other branch can produce
`-EAGAIN`. -/
theorem insertvWrite_ret_eagain_iff (e : InsertEnv) (ri : VRing) (len niov : Nat) (sp : Int)
    (txLocal : Nat) (writes : List WriteEv) :
    ((insertvWrite e ri len niov sp txLocal writes (len : Int)).ret = -EAGAIN ↔
      (V4V_ROUNDUP len + MSG_HDR_SIZE : Int) ≥ intAsSizeT sp) := by
  rcases insertvWrite_cases e ri len niov sp txLocal writes (len : Int) with
    ⟨hc, heq⟩ | ⟨hc, _, heq⟩ | ⟨hc, _, st, hst, hr, heq⟩
  · rw [heq]
    exact iff_of_true rfl hc
  · rw [heq]
    exact iff_of_false (by norm_num [EFAULT, EAGAIN]) hc
  · rw [heq]
    rcases insertvFinish_cases e ri st (len : Int) with
      ⟨hne0, hfe⟩ | ⟨_, _, hfe⟩ | ⟨_, _, hfe⟩
    · have hfault : st.ret = -EFAULT := by
        rcases hr with h | h
        · exact absurd h hne0
        · exact h
      rw [hfe]
      exact iff_of_false (by simp only [hfault]; norm_num [EFAULT, EAGAIN]) hc
    · rw [hfe]
      exact iff_of_false (by norm_num [EFAULT, EAGAIN]) hc
    · rw [hfe]
      refine iff_of_false ?_ hc
      simp only [EAGAIN]
      omega

/-- C1 (amended): for an insert into a ring with `rx != tx` (fresh guest
`rx_ptr`, cached `tx_ptr`, both in range, message small enough to pass
the `EMSGSIZE` pre-check, header read succeeding), the engine returns
`EAGAIN` exactly when `roundup16(payload) + HDR >= (rx - tx + cap) mod
cap` — i.e. when `available < roundup16(payload)` for the spec's
`available = ((rx - tx + cap) mod cap) - HDR - 16`, not `available <
roundup16(payload) + HDR` as the claim states. -/
theorem c1_eagain_iff (e : InsertEnv) (ri : VRing) (len niov : Nat)
    (hnp : 0 < ri.npage) (hmap : e.mapOk 0 = true)
    (hrx : ri.rxWord < ri.len) (htx : ri.tx_ptr < ri.len)
    (hne : ri.rxWord ≠ ri.tx_ptr) (hlen : ri.len < 2 ^ 31)
    (hsize : V4V_ROUNDUP len + MSG_HDR_SIZE < ri.len) :
    ((v4v_ringbuf_insertv e ri len niov).ret = -EAGAIN ↔
      (ri.rxWord + ri.len - ri.tx_ptr) % ri.len ≤ V4V_ROUNDUP len + MSG_HDR_SIZE) := by
  have hm0 : v4v_ring_map_page e.mapOk ri.npage 0 = true := by
    simp [v4v_ring_map_page, hnp, hmap]
  rcases v4v_ringbuf_insertv_cases e ri len niov with
    ⟨h1, _⟩ | ⟨_, h2, _⟩ | ⟨_, _, h3, _, _⟩ | ⟨_, _, h3, _, _⟩ | ⟨_, _, _, heq⟩
  · omega
  · exact absurd hm0 h2
  · exact absurd h3 hne
  · exact absurd h3 hne
  · rw [heq, insertvWrite_ret_eagain_iff,
      sp_eq_mod ri.rxWord ri.tx_ptr ri.len hrx htx hne hlen,
      intAsSizeT_of_nonneg _ (Int.natCast_nonneg _)]
    constructor
    · intro h
      exact_mod_cast h
    · intro h
      exact_mod_cast h

/-- Counterexample to C1 as stated: ring of capacity 128 with `tx = 0`,
fresh `rx = 48`, payload 16.  The spec's `available = ((rx - tx + cap)
mod cap) - HDR - 16 = 16` is smaller than `roundup16(16) + HDR = 32`, so
the claim demands `EAGAIN`; the code proceeds and the insert succeeds,
returning the payload length 16. -/
theorem c1_counterexample :
    ringA.rxWord ≠ ringA.tx_ptr ∧
    ((ringA.rxWord + ringA.len - ringA.tx_ptr) % ringA.len)
        - MSG_HDR_SIZE - 16 < V4V_ROUNDUP 16 + MSG_HDR_SIZE ∧
    (v4v_ringbuf_insertv envAll ringA 16 1).ret ≠ -EAGAIN ∧
    (v4v_ringbuf_insertv envAll ringA 16 1).ret = 16 := by decide

/-- Witness for the amended C1 at a concrete input: with `rx = 32`,
`tx = 0`, capacity 128 and payload 16 the gap is 32 and
`roundup16(16) + HDR = 32 >= 32`, so the insert returns `EAGAIN`. -/
theorem c1_eagain_iff_witness :
    (v4v_ringbuf_insertv envAll { ringA with rxWord := 32 } 16 1).ret = -EAGAIN :=
  (c1_eagain_iff envAll { ringA with rxWord := 32 } 16 1 (by decide) (by decide)
    (by decide) (by decide) (by decide) (by decide) (by decide)).mpr (by decide)

/-- C3: when the fresh `rx_ptr` equals the cached `tx_ptr` and `tx_ptr
!= 0` (and the message passes the size pre-check and the header read
succeeds), the engine writes `tx_ptr = 0` and `rx_ptr = 0` back to guest
memory before any message write, the message header is then written at
payload offset 0 (ring offset `RING_HDR_SIZE`), the guest `rx_ptr` word
ends at 0, and if the insert aborts it aborts with `EFAULT`, leaving
both pointers 0 (the reset write-backs themselves cannot fail: the
header read already mapped page 0). -/
theorem c3_empty_ring_reset (e : InsertEnv) (ri : VRing) (len niov : Nat)
    (hnp : 0 < ri.npage) (hmap : e.mapOk 0 = true)
    (hrxtx : ri.rxWord = ri.tx_ptr) (hnz : ri.tx_ptr ≠ 0)
    (hsize : V4V_ROUNDUP len + MSG_HDR_SIZE < ri.len) (hlen : ri.len < 2 ^ 31) :
    (v4v_ringbuf_insertv e ri len niov).writes.take 3 =
      [WriteEv.txPtr 0, WriteEv.rxPtr 0, WriteEv.ringData RING_HDR_SIZE MSG_HDR_SIZE] ∧
    (v4v_ringbuf_insertv e ri len niov).ring.rxWord = 0 ∧
    ((v4v_ringbuf_insertv e ri len niov).ret < 0 →
      (v4v_ringbuf_insertv e ri len niov).ret = -EFAULT ∧
      (v4v_ringbuf_insertv e ri len niov).ring.tx_ptr = 0 ∧
      (v4v_ringbuf_insertv e ri len niov).ring.txWord = 0) := by
  have hm0 : v4v_ring_map_page e.mapOk ri.npage 0 = true := by
    simp [v4v_ring_map_page, hnp, hmap]
  rcases v4v_ringbuf_insertv_cases e ri len niov with
    ⟨h1, _⟩ | ⟨_, h2, _⟩ | ⟨_, _, _, _, heq⟩ | ⟨_, _, _, h4, _⟩ | ⟨_, _, h3, _⟩
  · omega
  · exact absurd hm0 h2
  · rw [heq]
    rcases insertvWrite_cases e { ri with tx_ptr := 0, txWord := 0, rxWord := 0 } len niov
        (int32ofU32 ri.len) 0 [WriteEv.txPtr 0, WriteEv.rxPtr 0] (len : Int) with
      ⟨hc, _⟩ | ⟨_, hm, _⟩ | ⟨_, _, st, hst, hr, heqW⟩
    · exfalso
      rw [int32ofU32_of_lt ri.len hlen,
        intAsSizeT_of_nonneg _ (Int.natCast_nonneg _)] at hc
      have : V4V_ROUNDUP len + MSG_HDR_SIZE ≥ ri.len := by exact_mod_cast hc
      omega
    · exact absurd (by simp [mh_write_at_0, v4v_ring_map_page, hnp, hmap]) hm
    · have hpre : [WriteEv.txPtr 0, WriteEv.rxPtr 0,
          WriteEv.ringData RING_HDR_SIZE MSG_HDR_SIZE] <+: st.writes := by
        rw [hst]
        have := insertvIovLoop_writes e ri.len ri.npage niov 0
          ⟨if 0 + MSG_HDR_SIZE = ri.len then 0 else 0 + MSG_HDR_SIZE,
           [WriteEv.txPtr 0, WriteEv.rxPtr 0] ++
             [WriteEv.ringData (0 + RING_HDR_SIZE) MSG_HDR_SIZE], 0⟩
        simpa using this
      have htake : ∀ w : List WriteEv,
          [WriteEv.txPtr 0, WriteEv.rxPtr 0,
            WriteEv.ringData RING_HDR_SIZE MSG_HDR_SIZE] <+: w →
          w.take 3 =
            [WriteEv.txPtr 0, WriteEv.rxPtr 0,
              WriteEv.ringData RING_HDR_SIZE MSG_HDR_SIZE] := by
        intro w hw
        have := List.prefix_iff_eq_take.mp hw
        simpa using this.symm
      have hupd : v4v_update_ptr_ok e.mapOk
          ({ ri with tx_ptr := 0, txWord := 0, rxWord := 0 } : VRing).npage = true := by
        simpa [v4v_update_ptr_ok] using hm0
      rw [heqW]
      rcases insertvFinish_cases e { ri with tx_ptr := 0, txWord := 0, rxWord := 0 } st
          (len : Int) with ⟨hne0, hfe⟩ | ⟨_, hu, _⟩ | ⟨_, _, hfe⟩
      · have hfault : st.ret = -EFAULT := by
          rcases hr with h | h
          · exact absurd h hne0
          · exact h
        rw [hfe]
        exact ⟨htake st.writes hpre, rfl, fun _ => ⟨hfault, rfl, rfl⟩⟩
      · exact absurd hupd hu
      · rw [hfe]
        refine ⟨?_, rfl, ?_⟩
        · have : [WriteEv.txPtr 0, WriteEv.rxPtr 0,
              WriteEv.ringData RING_HDR_SIZE MSG_HDR_SIZE] <+:
              st.writes ++ [WriteEv.txPtr (insertvFinishTx
                { ri with tx_ptr := 0, txWord := 0, rxWord := 0 } st)] :=
            hpre.trans (List.prefix_append _ _)
          exact htake _ this
        · intro hlt
          exfalso
          simp only [] at hlt
          omega
  · exact absurd h4 hnz
  · exact absurd hrxtx h3

/-- Witness for C3 at a concrete ring (`rx = tx = 48`): the reset fires,
both pointers are written to 0 before the message header lands at
payload offset 0, and the guest `rx_ptr` word ends at 0. -/
theorem c3_empty_ring_reset_witness :
    (v4v_ringbuf_insertv envAll
        { ringA with tx_ptr := 48, txWord := 48, rxWord := 48 } 16 1).writes.take 3 =
      [WriteEv.txPtr 0, WriteEv.rxPtr 0, WriteEv.ringData RING_HDR_SIZE MSG_HDR_SIZE] ∧
    (v4v_ringbuf_insertv envAll
        { ringA with tx_ptr := 48, txWord := 48, rxWord := 48 } 16 1).ring.rxWord = 0 :=
  ⟨(c3_empty_ring_reset envAll { ringA with tx_ptr := 48, txWord := 48, rxWord := 48 } 16 1
      (by decide) (by decide) (by decide) (by decide) (by decide) (by decide)).1,
   (c3_empty_ring_reset envAll { ringA with tx_ptr := 48, txWord := 48, rxWord := 48 } 16 1
      (by decide) (by decide) (by decide) (by decide) (by decide) (by decide)).2.1⟩

/-- `V4V_ROUNDUP` as division arithmetic. -/
theorem V4V_ROUNDUP_eq (a : Nat) : V4V_ROUNDUP a = (a + 15) / 16 * 16 := by
  simp [V4V_ROUNDUP, Nat.shiftRight_eq_div_pow, Nat.shiftLeft_eq]

/-- `V4V_ROUNDUP(a) = a` iff `a` is 16-aligned. -/
theorem V4V_ROUNDUP_eq_self (a : Nat) : V4V_ROUNDUP a = a ↔ a % 16 = 0 := by
  rw [V4V_ROUNDUP_eq]
  omega

/-- The iovec loop keeps the working `ring.tx_ptr` inside the payload
area, provided no iovec claims more than the ring length (without that
bound a guest that inflates `iov_len` between `v4v_iov_count` and the
copy loop can drive `tx_ptr` out of range, see `c4_counterexample`). -/
theorem insertvIovLoop_txLocal_lt (e : InsertEnv) (L P : Nat) (hL : 0 < L)
    (hL31 : L < 2 ^ 31) (hiov : ∀ j, e.iovLen j ≤ L) :
    ∀ (n k : Nat) (st : IovLoopSt), st.txLocal < L →
      (insertvIovLoop e L P n k st).txLocal < L := by
  intro n
  induction n with
  | zero => intro k st h; exact h
  | succ m ih =>
    intro k st h
    have hK := hiov k
    have hsp : int32ofU32 (u32sub L st.txLocal) = ((L - st.txLocal : Nat) : Int) :=
      int32ofU32_u32sub_of_le L st.txLocal (Nat.le_of_lt h) (by omega)
    simp only [insertvIovLoop, hsp, Int.toNat_natCast]
    rw [intAsSizeT_of_nonneg _ (Int.natCast_nonneg (L - st.txLocal))]
    split_ifs <;>
      first
        | exact h
        | exact hL
        | (apply ih
           dsimp only
           omega)

/-- On a successful run of the tail of the engine, the final cached
`tx_ptr` lies inside the payload area and is 16-aligned. -/
theorem insertvWrite_success_tx (e : InsertEnv) (ri : VRing) (len niov : Nat) (sp : Int)
    (txLocal : Nat) (writes : List WriteEv)
    (hlen16 : ri.len % 16 = 0) (hL : 0 < ri.len) (hL31 : ri.len < 2 ^ 31)
    (hiov : ∀ j, e.iovLen j ≤ ri.len)
    (htx : txLocal + MSG_HDR_SIZE ≤ ri.len)
    (hret : 0 ≤ (insertvWrite e ri len niov sp txLocal writes (len : Int)).ret) :
    (insertvWrite e ri len niov sp txLocal writes (len : Int)).ring.tx_ptr < ri.len ∧
    (insertvWrite e ri len niov sp txLocal writes (len : Int)).ring.tx_ptr % 16 = 0 := by
  rcases insertvWrite_cases e ri len niov sp txLocal writes (len : Int) with
    ⟨_, heq⟩ | ⟨_, _, heq⟩ | ⟨_, _, st, hst, hr, heq⟩
  · exfalso
    rw [heq] at hret
    simp only [EAGAIN] at hret
    omega
  · exfalso
    rw [heq] at hret
    simp only [EFAULT] at hret
    omega
  · rw [heq] at hret ⊢
    rcases insertvFinish_cases e ri st (len : Int) with
      ⟨hne0, hfe⟩ | ⟨_, _, hfe⟩ | ⟨_, _, hfe⟩
    · exfalso
      have hfault : st.ret = -EFAULT := by
        rcases hr with hx | hx
        · exact absurd hx hne0
        · exact hx
      rw [hfe] at hret
      simp only [hfault, EFAULT] at hret
      omega
    · exfalso
      rw [hfe] at hret
      simp only [EFAULT] at hret
      omega
    · rw [hfe]
      have hstlt : st.txLocal < ri.len := by
        rw [hst]
        apply insertvIovLoop_txLocal_lt e ri.len ri.npage hL hL31 hiov
        dsimp only
        split_ifs with hx
        · exact hL
        · omega
      constructor
      · simp only [insertvFinishTx, V4V_ROUNDUP_eq]
        split_ifs with hge <;> omega
      · simp only [insertvFinishTx, V4V_ROUNDUP_eq]
        split_ifs with hge <;> omega

/-- C4 (amended): after a registration whose guest-supplied `rx_ptr` is
itself in range and 16-aligned, the cached `tx_ptr` satisfies `tx_ptr <
len ∧ tx_ptr % 16 = 0` (the normalization target `rx_ptr` is not
validated by the code, so this extra hypothesis is necessary — see
`c4_counterexample`); and after a successful insert on a well-formed
ring whose iovec lengths, as re-read by the copy loop, are bounded by
the ring length, the invariant is preserved (also necessary: an iovec
inflated between `v4v_iov_count` and the loop can push `tx_ptr` out of
range). -/
theorem c4_tx_ptr_invariant :
    (∀ (e : AddEnv) (r : RingReg) (lo tx : Nat),
       r.rx_ptr < r.len → r.rx_ptr % 16 = 0 →
       v4v_ring_add e r = Except.ok (lo, tx) → tx < lo ∧ tx % 16 = 0) ∧
    (∀ (e : InsertEnv) (ri : VRing) (len niov : Nat),
       ri.len % 16 = 0 → ri.tx_ptr < ri.len → ri.tx_ptr % 16 = 0 → ri.len < 2 ^ 31 →
       (∀ j, e.iovLen j ≤ ri.len) →
       0 ≤ (v4v_ringbuf_insertv e ri len niov).ret →
       (v4v_ringbuf_insertv e ri len niov).ring.tx_ptr < ri.len ∧
       (v4v_ringbuf_insertv e ri len niov).ring.tx_ptr % 16 = 0) := by
  constructor
  · intro e r lo tx hrx ha hok
    unfold v4v_ring_add at hok
    split_ifs at hok with h1 h2 h3 h4 h5 h6 h7 h8 h9 h10
    all_goals injection hok with h
    all_goals injection h with hl ht
    all_goals subst hl
    all_goals subst ht
    · exact ⟨hrx, ha⟩
    · push_neg at h7
      exact ⟨h7.1, (V4V_ROUNDUP_eq_self r.tx_ptr).mp h7.2⟩
  · intro e ri len niov hlen16 htxlt htxal hlen31 hiov hret
    rcases v4v_ringbuf_insertv_cases e ri len niov with
      ⟨_, heq⟩ | ⟨_, _, heq⟩ | ⟨h1, _, _, _, heq⟩ | ⟨h1, _, _, _, heq⟩ | ⟨h1, _, _, heq⟩
    · exfalso
      rw [heq] at hret
      simp only [EMSGSIZE] at hret
      omega
    · exfalso
      rw [heq] at hret
      simp only [EFAULT] at hret
      omega
    · rw [heq] at hret ⊢
      exact insertvWrite_success_tx e { ri with tx_ptr := 0, txWord := 0, rxWord := 0 }
        len niov (int32ofU32 ri.len) 0 [WriteEv.txPtr 0, WriteEv.rxPtr 0]
        hlen16 (by simp only [MSG_HDR_SIZE] at h1 ⊢; omega) hlen31 hiov
        (by simp only [MSG_HDR_SIZE] at h1 ⊢; omega) hret
    · rw [heq] at hret ⊢
      exact insertvWrite_success_tx e ri len niov (int32ofU32 ri.len) ri.tx_ptr []
        hlen16 (by omega) hlen31 hiov
        (by simp only [MSG_HDR_SIZE] at h1 ⊢; omega) hret
    · rw [heq] at hret ⊢
      exact insertvWrite_success_tx e ri len niov _ ri.tx_ptr []
        hlen16 (by omega) hlen31 hiov
        (by simp only [MSG_HDR_SIZE] at h1 ⊢; omega) hret

/-- Counterexample to C4 as stated.  Register: a guest header with
`tx_ptr = 8` (misaligned, so it is normalized to `rx_ptr`) and `rx_ptr
= 8` registers successfully with cached `tx_ptr = 8`, which is not
16-aligned.  Insert: on a 128-byte ring that is empty at 0, an iovec
whose re-read length is 368 completes "successfully" (return 16) and
leaves the cached `tx_ptr` at 128 = len, violating `tx_ptr < len`. -/
theorem c4_counterexample :
    (v4v_ring_add addEnvOk c4reg = Except.ok (4096, 8) ∧ ¬ (8 % 16 = 0)) ∧
    ((v4v_ringbuf_insertv c4env c4ring 16 1).ret = 16 ∧
     c4ring.len % 16 = 0 ∧ c4ring.tx_ptr < c4ring.len ∧ c4ring.tx_ptr % 16 = 0 ∧
     ¬ ((v4v_ringbuf_insertv c4env c4ring 16 1).ring.tx_ptr < c4ring.len)) :=
  ⟨⟨rfl, by decide⟩, by decide⟩

/-- Witness for the amended C4: registration with a misaligned `tx_ptr`
and a valid `rx_ptr` produces the invariant, and a successful concrete
insert preserves it. -/
theorem c4_tx_ptr_invariant_witness :
    ((0 : Nat) < 4096 ∧ (0 : Nat) % 16 = 0) ∧
    ((v4v_ringbuf_insertv envAll ringA 16 1).ring.tx_ptr < ringA.len ∧
     (v4v_ringbuf_insertv envAll ringA 16 1).ring.tx_ptr % 16 = 0) :=
  ⟨c4_tx_ptr_invariant.1 addEnvOk c4regGood 4096 0 (by decide) (by decide) rfl,
   c4_tx_ptr_invariant.2 envAll ringA 16 1 (by decide) (by decide) (by decide) (by decide)
     (fun j => by norm_num [envAll, ringA]) (by decide)⟩

/-- Index-shift for sums over iovec lengths. -/
theorem iov_sum_shift (lens : Nat → Nat) (m k : Nat) :
    Finset.sum (Finset.range (m + 1)) (fun i => lens (k + i)) =
      Finset.sum (Finset.range m) (fun i => lens (k + 1 + i)) + lens k := by
  rw [Finset.sum_range_succ']
  congr 1
  refine Finset.sum_congr rfl fun i _ => ?_
  congr 1
  omega

/-- `v4v_iov_count`'s loop returns `EMSGSIZE` whenever the running total
exceeds 2 GiB (every descriptor readable). -/
theorem v4vIovCountLoop_overflow (fetchOk : Nat → Bool) (lens : Nat → Nat) :
    ∀ (n k acc : Nat), (∀ i, i < n → fetchOk (k + i) = true) → acc ≤ 2 ^ 31 →
      2 ^ 31 < acc + Finset.sum (Finset.range n) (fun i => lens (k + i)) →
      v4vIovCountLoop fetchOk lens n k acc = -EMSGSIZE := by
  intro n
  induction n with
  | zero =>
    intro k acc _ hacc hbig
    simp at hbig
    omega
  | succ m ih =>
    intro k acc hf hacc hbig
    have hfk : fetchOk k = true := by simpa using hf 0 (by omega)
    simp only [v4vIovCountLoop]
    rw [if_neg (by simp [hfk])]
    by_cases hov : acc + lens k > 2 ^ 31
    · rw [if_pos hov]
    · rw [if_neg hov]
      rw [iov_sum_shift] at hbig
      refine ih (k + 1) (acc + lens k) ?_ (by omega) (by omega)
      intro i hi
      have := hf (i + 1) (by omega)
      have hidx : k + (i + 1) = k + 1 + i := by omega
      rwa [hidx] at this

/-- When the total fits in 2 GiB and every descriptor is readable,
`v4v_iov_count`'s loop returns the exact total. -/
theorem v4vIovCountLoop_value (fetchOk : Nat → Bool) (lens : Nat → Nat) :
    ∀ (n k acc : Nat), (∀ i, i < n → fetchOk (k + i) = true) →
      acc + Finset.sum (Finset.range n) (fun i => lens (k + i)) ≤ 2 ^ 31 →
      v4vIovCountLoop fetchOk lens n k acc =
        ((acc + Finset.sum (Finset.range n) (fun i => lens (k + i)) : Nat) : Int) := by
  intro n
  induction n with
  | zero =>
    intro k acc _ _
    simp [v4vIovCountLoop]
  | succ m ih =>
    intro k acc hf hle
    have hfk : fetchOk k = true := by simpa using hf 0 (by omega)
    rw [iov_sum_shift] at hle ⊢
    simp only [v4vIovCountLoop]
    rw [if_neg (by simp [hfk]), if_neg (by omega)]
    rw [ih (k + 1) (acc + lens k) ?_ (by omega)]
    · congr 1
      omega
    · intro i hi
      have := hf (i + 1) (by omega)
      have hidx : k + (i + 1) = k + 1 + i := by omega
      rwa [hidx] at this

/-- C5: with the send reaching the destination ring (caller has v4v
state, destination exists and has v4v state, the filter accepts, the
lookup finds `ring`) and every iovec descriptor readable, `v4v_sendv`
returns `EMSGSIZE` with nothing written into the ring both when the
total iovec byte count exceeds 2 GiB and when `roundup16(total) + HDR >=
ring capacity`. -/
theorem c5_emsgsize (se : SendEnv) (e : InsertEnv) (rules : List Rule) (srcDomid : Nat)
    (srcAddr dstAddr : V4vAddr) (dstDom : V4vDomain) (niov : Nat) (ring : VRing)
    (hsrc : se.srcHasV4v = true) (hdst : se.dstExists = true)
    (hfil : v4vtables_check rules srcAddr dstAddr = 0) (hdv : se.dstHasV4v = true)
    (hfind : v4v_ring_find_info_by_addr dstDom dstAddr srcAddr.domain = some ring)
    (hfetch : ∀ i, i < niov → se.countFetchOk i = true) :
    (2 ^ 31 < Finset.sum (Finset.range niov) (fun i => e.iovLen i) →
      v4v_sendv se e rules srcDomid srcAddr dstAddr dstDom niov =
        ⟨-EMSGSIZE, some ring, [], false⟩) ∧
    (Finset.sum (Finset.range niov) (fun i => e.iovLen i) ≤ 2 ^ 31 →
      V4V_ROUNDUP (Finset.sum (Finset.range niov) (fun i => e.iovLen i)) + MSG_HDR_SIZE ≥
        ring.len →
      v4v_sendv se e rules srcDomid srcAddr dstAddr dstDom niov =
        ⟨-EMSGSIZE, some ring, [], false⟩) := by
  have hf0 : ∀ i, i < niov → se.countFetchOk (0 + i) = true := by
    intro i hi
    simpa using hfetch i hi
  constructor
  · intro hbig
    have hcnt : v4v_iov_count se.countFetchOk e.iovLen niov = -EMSGSIZE := by
      unfold v4v_iov_count
      exact v4vIovCountLoop_overflow se.countFetchOk e.iovLen niov 0 0 hf0 (by omega)
        (by simpa using hbig)
    unfold v4v_sendv
    rw [if_neg (by simp [hsrc]), if_neg (by simp [hdst]), if_neg (by simp [hfil]),
        if_neg (by simp [hdv]), hfind]
    simp only [hcnt]
    rw [if_pos (by norm_num [EMSGSIZE])]
  · intro hle hcap
    have hcnt : v4v_iov_count se.countFetchOk e.iovLen niov =
        ((Finset.sum (Finset.range niov) (fun i => e.iovLen i) : Nat) : Int) := by
      unfold v4v_iov_count
      have := v4vIovCountLoop_value se.countFetchOk e.iovLen niov 0 0 hf0 (by simpa using hle)
      simpa using this
    have hins : v4v_ringbuf_insertv e ring
        (Finset.sum (Finset.range niov) (fun i => e.iovLen i)) niov =
        ⟨ring, [], -EMSGSIZE⟩ := by
      simp only [v4v_ringbuf_insertv]
      rw [if_pos hcap]
    unfold v4v_sendv
    rw [if_neg (by simp [hsrc]), if_neg (by simp [hdst]), if_neg (by simp [hfil]),
        if_neg (by simp [hdv]), hfind]
    simp only [hcnt]
    rw [if_neg (Int.not_lt.mpr (Int.natCast_nonneg _)), Int.toNat_natCast, hins]
    norm_num [EMSGSIZE, EAGAIN]

/-- Witness for C5: three 1 GiB descriptors trip the 2 GiB cap, and
eight 16-byte descriptors (128 bytes total) can never fit a 128-byte
ring; both sends return `-EMSGSIZE` with an empty write log. -/
theorem c5_emsgsize_witness :
    v4v_sendv seC5 eBig [] 2 ⟨2, 9⟩ ⟨1, 5⟩ domA 3 =
      ⟨-EMSGSIZE, some ringExact, [], false⟩ ∧
    v4v_sendv seC5 envAll [] 2 ⟨2, 9⟩ ⟨1, 5⟩ domA 8 =
      ⟨-EMSGSIZE, some ringExact, [], false⟩ :=
  ⟨(c5_emsgsize seC5 eBig [] 2 ⟨2, 9⟩ ⟨1, 5⟩ domA 3 ringExact rfl rfl rfl rfl rfl
      (fun _ _ => rfl)).1 (by norm_num [eBig, envAll, Finset.sum_range_succ]),
   (c5_emsgsize seC5 envAll [] 2 ⟨2, 9⟩ ⟨1, 5⟩ domA 8 ringExact rfl rfl rfl rfl rfl
      (fun _ _ => rfl)).2 (by norm_num [envAll, Finset.sum_range_succ])
      (by simp only [envAll, ringExact, ringA]
          norm_num [Finset.sum_range_succ]
          decide)⟩

end V4V
